import Mathlib

/-!
Shallow embedding of `update.py` (jetbrains-ides-build-numbers).

The script fetches a product catalog, filters it to a fixed set of known
IDE codes, and derives three artifacts: a sorted code/name index
(`_update_all_codes`), a version-keyed build-number matrix
(`_map_version_to_build_numbers` / `_construct_ide_table`), and a grouped
JSON dump (`_update_json`).  File writing and the HTTP fetch are out of
scope; every pure transformation is embedded below.

Python `dict`s are modelled as insertion-ordered association lists
(`alookup` / `dicSet`), `sorted` as a stable insertion sort (`stableSort`;
CPython's sort is stable, and a stable sort w.r.t. a total preorder is
unique, so any stable sort models it), and exceptions as `Except String`.
`packaging.version.Version` is modelled on the dotted-numeric fragment
that this data uses: such a string parses to its list of decimal
segments, and two parsed versions compare by their release tuples with
trailing zeros stripped, exactly as PEP 440 prescribes for plain release
versions (no epoch/pre/post/dev/local parts are involved).  A string
outside that fragment is a parse failure, as `Version("latest")` is.
-/

/-- The `IDECode` StrEnum: the closed registry of known IDE codes. -/
inductive IDECode
  | CL | GO | IIC | IIU | PCC | PCP | PS | RC | RD | RM | RR | RS | WS
deriving DecidableEq, Repr, Fintype

/-- The members of the `IDECode` enum, in declaration order. -/
def IDECode.members : List IDECode :=
  [.CL, .GO, .IIC, .IIU, .PCC, .PCP, .PS, .RC, .RD, .RM, .RR, .RS, .WS]

/-- The member name of an `IDECode` member (Python `member.name`, e.g. `"CL"`).
For a `StrEnum` the *name* is the short code; the *value* is the display name. -/
def IDECode.name : IDECode → String
  | .CL => "CL"
  | .GO => "GO"
  | .IIC => "IIC"
  | .IIU => "IIU"
  | .PCC => "PCC"
  | .PCP => "PCP"
  | .PS => "PS"
  | .RC => "RC"
  | .RD => "RD"
  | .RM => "RM"
  | .RR => "RR"
  | .RS => "RS"
  | .WS => "WS"

/-- The member value of an `IDECode` member (Python `member.value`, the display name). -/
def IDECode.value : IDECode → String
  | .CL => "CLion"
  | .GO => "GoLand"
  | .IIC => "IntelliJ IDEA Community Edition"
  | .IIU => "IntelliJ IDEA Ultimate"
  | .PCC => "PyCharm Community Edition"
  | .PCP => "PyCharm Professional Edition"
  | .PS => "PhpStorm"
  | .RC => "ReSharper C++"
  | .RD => "Rider"
  | .RM => "RubyMine"
  | .RR => "RustRover"
  | .RS => "ReSharper"
  | .WS => "WebStorm"

/-- `IDECode.get`: `cls[member]` wrapped in `try/except KeyError`, i.e. lookup
of a member by name returning `None` when the name is unknown.  Total: it
never raises, absence is the `none` value. -/
def IDECode.get (s : String) : Option IDECode :=
  IDECode.members.find? (fun c => c.name == s)

/-- A single quote character, used when rendering Python error messages. -/
def squote (s : String) : String :=
  String.singleton (Char.ofNat 39) ++ s ++ String.singleton (Char.ofNat 39)

/-- Message of the `KeyError` raised by `IDECode[ide.code]` on an unknown code. -/
def keyErrorMessage (code : String) : String :=
  "KeyError: " ++ squote code

/-- Message of `packaging.version.InvalidVersion` for an unparsable version string. -/
def invalidVersionMessage (v : String) : String :=
  "Invalid version: " ++ squote v

/-- The `Release` pydantic model: a version string, an optional build number,
and a release date (kept as its ISO string; it is never inspected). -/
structure Release where
  version : String
  build : Option String
  date : String
deriving DecidableEq, Repr

/-- The `Product` pydantic model: raw catalog entry. -/
structure Product where
  code : String
  name : String
  releases : List Release
deriving DecidableEq, Repr

/-- `IDEList.releases`: the generator yielding `(IDECode[ide.code], release)`
for every release of every product, in order.  The unguarded
`IDECode[ide.code]` lookup sits inside the innermost loop of the generator
expression, so it is evaluated once per release: a product with an empty
release list performs no lookup at all, and an unknown code raises
`KeyError` at that product's first release.  Consumers iterate the
generator to exhaustion, so the traversal fails at the first unknown-code
product that has at least one release. -/
def IDEList.releases : List Product → Except String (List (IDECode × Release))
  | [] => .ok []
  | p :: rest =>
    match p.releases with
    | [] => IDEList.releases rest
    | _ :: _ =>
      match IDECode.get p.code with
      | none => .error (keyErrorMessage p.code)
      | some c =>
        (IDEList.releases rest).map (fun l => p.releases.map (fun r => (c, r)) ++ l)

/-- Lookup in an insertion-ordered association list (Python `d[k]` / `d.get(k)`). -/
def alookup {κ ν : Type} [DecidableEq κ] : List (κ × ν) → κ → Option ν
  | [], _ => none
  | (k0, v0) :: rest, k => if k0 = k then some v0 else alookup rest k

/-- `d[k] = v` on an insertion-ordered association list: update in place if the
key is present, else append at the end — exactly CPython dict semantics. -/
def dicSet {κ ν : Type} [DecidableEq κ] : List (κ × ν) → κ → ν → List (κ × ν)
  | [], k, v => [(k, v)]
  | (k0, v0) :: rest, k, v =>
    if k0 = k then (k, v) :: rest else (k0, v0) :: dicSet rest k v

abbrev RawVersion := String
abbrev BuildNumber := String

/-- One row of the matrix: `dict[IDECode, BuildNumber | None]`. -/
abbrev Row := List (IDECode × Option BuildNumber)

/-- The matrix: `dict[RawVersion, dict[IDECode, BuildNumber | None]]`. -/
abbrev Table := List (RawVersion × Row)

/-- One iteration of the loop in `_map_version_to_build_numbers`: skip the
release if its build is `None`, otherwise ensure the version row exists and
set the cell for this code. -/
def tableStep (t : Table) (q : IDECode × Release) : Table :=
  match q.2.build with
  | none => t
  | some b =>
    let row := (alookup t q.2.version).getD []
    dicSet t q.2.version (dicSet row q.1 (some b))

/-- The loop of `_map_version_to_build_numbers` over the `(code, release)` pairs. -/
def versionTable (pairs : List (IDECode × Release)) : Table :=
  pairs.foldl tableStep []

/-- `s.split(".")` on the character list of a string (empty segments preserved). -/
def splitDot : List Char → List (List Char)
  | [] => [[]]
  | c :: cs =>
    if c = '.' then [] :: splitDot cs
    else
      match splitDot cs with
      | [] => [[c]]
      | seg :: rest => (c :: seg) :: rest

/-- The numeric value of a decimal digit character, `none` for non-digits. -/
def digitVal (c : Char) : Option Nat :=
  if c.isDigit then some (c.toNat - 48) else none

/-- `int(segment)` for a nonempty all-digit segment, `none` otherwise. -/
def segToNat : List Char → Option Nat
  | [] => none
  | cs =>
    cs.foldl (fun acc c => acc.bind (fun n => (digitVal c).map (fun d => n * 10 + d)))
      (some 0)

/-- Parse a version string into its dotted-numeric segments.  Models the
release fragment of `packaging.version.Version`: succeeds exactly on
nonempty dot-separated runs of decimal digits.  Here strings outside this
fragment (such as `"latest"`) fail, as they do in `packaging`. -/
def parseSegments (s : String) : Option (List Nat) :=
  (splitDot s.toList).mapM segToNat

/-- Strip trailing zero segments: PEP 440 compares release tuples with
trailing zeros removed, so `2024.1` equals `2024.1.0`. -/
def stripZeros (l : List Nat) : List Nat :=
  (l.reverse.dropWhile (fun n => n == 0)).reverse

/-- Strict lexicographic (tuple) comparison on segment lists, the order
underlying `Version.__lt__` on plain release versions. -/
def keyLt : List Nat → List Nat → Bool
  | [], [] => false
  | [], _ :: _ => true
  | _ :: _, [] => false
  | a :: as, b :: bs => decide (a < b) || (a == b && keyLt as bs)

/-- The PEP 440 comparison key of a dotted-numeric version string (only used
on strings already known to parse; the default is never reached then). -/
def versionKey (v : RawVersion) : List Nat :=
  stripZeros ((parseSegments v).getD [])

/-- Comparator of `sorted(..., reverse = True, key = lambda item: Version(item[0]))`:
row `a` may precede row `b` iff `a`'s version key is not below `b`'s. -/
def versionDescLe (a b : RawVersion × Row) : Bool :=
  !(keyLt (versionKey a.1) (versionKey b.1))

/-- Stable insertion: place `a` before the first element it may precede. -/
def insertSorted {α : Type} (le : α → α → Bool) (a : α) : List α → List α
  | [] => [a]
  | b :: bs => if le a b then a :: b :: bs else b :: insertSorted le a bs

/-- Stable sort w.r.t. a total preorder `le`.  CPython's `sorted` is stable,
and stable sorting is unique, so this models `sorted` exactly. -/
def stableSort {α : Type} (le : α → α → Bool) : List α → List α
  | [] => []
  | a :: as => insertSorted le a (stableSort le as)

/-- The first table key that `Version` fails to parse, if any: `sorted`
evaluates the key function on every item in list order, so the first
unparsable version in insertion order raises. -/
def firstUnparsable (t : Table) : Option RawVersion :=
  (t.map Prod.fst).find? (fun v => (parseSegments v).isNone)

/-- `_map_version_to_build_numbers`, factored over the `(code, release)` pairs
that `ides.releases` yields: build the version table, then return it sorted
by descending version — or raise `InvalidVersion` if some key fails to parse. -/
def map_version_to_build_numbers (pairs : List (IDECode × Release)) : Except String Table :=
  let t := versionTable pairs
  match firstUnparsable t with
  | some v => .error (invalidVersionMessage v)
  | none => .ok (stableSort versionDescLe t)

/-- `_map_version_to_build_numbers` on an `IDEList` of products. -/
def map_version_to_build_numbers_of (ides : List Product) : Except String Table :=
  (IDEList.releases ides).bind map_version_to_build_numbers

/-- Code-point lexicographic `≤` on character lists: Python string comparison
(`unicodedata` code points, shorter prefix first). -/
def charListLe : List Char → List Char → Bool
  | [], _ => true
  | _ :: _, [] => false
  | a :: as, b :: bs =>
    if a.toNat = b.toNat then charListLe as bs else decide (a.toNat < b.toNat)

/-- `_update_all_codes` minus the file write: every fetched product's
`{code, name}` pair, stably sorted ascending by code. -/
def update_all_codes (products : List Product) : List (String × String) :=
  stableSort (fun a b => charListLe a.1.toList b.1.toList)
    (products.map (fun p => (p.code, p.name)))

/-- `code_to_releases[code.name].append(...)`: append a release under a key,
creating the key at the end on first use (defaultdict + insertion order). -/
def appendGroup (g : List (String × List Release)) (k : String) (r : Release) :
    List (String × List Release) :=
  match g with
  | [] => [(k, [r])]
  | (k0, rs) :: rest =>
    if k0 = k then (k0, rs ++ [r]) :: rest else (k0, rs) :: appendGroup rest k r

/-- The grouping loop of `_update_json` over the `(code, release)` pairs.
The JSON round trip `json.loads(release.model_dump_json())` preserves the
three fields (the date as its ISO string), so a grouped value is the
release record itself. -/
def groupReleases (pairs : List (IDECode × Release)) : List (String × List Release) :=
  pairs.foldl (fun g q => appendGroup g q.1.name q.2) []

/-- `_update_json` minus the file write: the grouped JSON object, keyed by
`code.name`, propagating the `KeyError` of the releases generator. -/
def update_json (ides : List Product) : Except String (List (String × List Release)) :=
  (IDEList.releases ides).map groupReleases

/-- The filter `main` applies before constructing the `IDEList`. -/
def mainIDEList (products : List Product) : List Product :=
  products.filter (fun p => (IDECode.get p.code).isSome)

/-- The build of the last release in `pairs` (in input order) whose code is
`c`, whose version is `v` and whose build is present; `none` when there is
no such release.  Later pairs take precedence over earlier ones. -/
def lastPresentBuild : List (IDECode × Release) → IDECode → RawVersion → Option BuildNumber
  | [], _, _ => none
  | q :: rest, c, v =>
    match lastPresentBuild rest c v with
    | some b => some b
    | none => if q.1 = c ∧ q.2.version = v then q.2.build else none

/-- The cell of a matrix at `(version, code)`: `none` when the row or the
cell is missing, `some b` when the row holds `b` (itself an `Option`). -/
def matrixCell (t : Table) (v : RawVersion) (c : IDECode) : Option (Option BuildNumber) :=
  (alookup t v).bind (fun row => alookup row c)

/-- Raw segment-wise integer comparison `v1 > v2` (no trailing-zero stripping),
the reading of — dotted segments compared as integers — used by the spec. -/
def segmentwiseGt (v1 v2 : RawVersion) : Bool :=
  match parseSegments v1, parseSegments v2 with
  | some a, some b => keyLt b a
  | _, _ => false

/-- The pair list `ides.releases` yields when every code is known. -/
def pairsOf (ides : List Product) : List (IDECode × Release) :=
  ides.flatMap (fun p =>
    match IDECode.get p.code with
    | some c => p.releases.map (fun r => (c, r))
    | none => [])

/-- Input for the ordering counterexample: two distinct version strings,
`2024.1` and `2024.1.0`, that PEP 440 compares as equal. -/
def c1Pairs : List (IDECode × Release) :=
  [(.IIU, ⟨"2024.1", some "241.1", "2024-01-01"⟩),
   (.IIU, ⟨"2024.1.0", some "241.2", "2024-01-02"⟩)]

/-- Input whose rows must sort `2024.10` above `2024.9`. -/
def c1wPairs : List (IDECode × Release) :=
  [(.IIU, ⟨"2024.9", some "241.50", "2024-06-01"⟩),
   (.IIU, ⟨"2024.10", some "241.100", "2024-07-01"⟩)]

/-- Input mixing a present and an absent build identifier (the spec's example). -/
def c2wPairs : List (IDECode × Release) :=
  [(.IIU, ⟨"2023.3", some "233.100", "2023-11-01"⟩),
   (.IIC, ⟨"2023.3", none, "2023-11-01"⟩)]

/-- Input with a version string that is not dotted-numeric. -/
def c3Pairs : List (IDECode × Release) :=
  [(.IIU, ⟨"latest", some "241.1", "2024-01-01"⟩)]

/-- Input for the row invariant witness. -/
def c4wPairs : List (IDECode × Release) :=
  [(.RR, ⟨"2024.1", some "241.7", "2024-04-04"⟩),
   (.RR, ⟨"2024.2", none, "2024-08-04"⟩)]

/-- Product list for the grouped-view witnesses: two known identities, one
release with an absent build identifier. -/
def c5IDEs : List Product :=
  [⟨"IIU", "IntelliJ IDEA Ultimate",
     [⟨"2023.3", some "233.100", "2023-11-01"⟩, ⟨"2024.1", none, "2024-02-01"⟩]⟩,
   ⟨"IIC", "IntelliJ IDEA Community Edition", [⟨"2023.3", none, "2023-11-01"⟩]⟩]

/-- Product list for the grouped-key witness. -/
def c6IDEs : List Product :=
  [⟨"CL", "CLion", [⟨"2024.1", none, "2024-04-01"⟩]⟩]

/-- A fetched product list with a duplicated code. -/
def c7Products : List Product :=
  [⟨"X", "first", []⟩, ⟨"X", "second", []⟩]

/-- A fetched product list with distinct codes, unsorted. -/
def c7wProducts : List Product :=
  [⟨"GO", "GoLand", []⟩, ⟨"CL", "CLion", []⟩, ⟨"XX", "Unknown thing", []⟩]

/-- Input repeating one `(identity, version)` pair with two present builds. -/
def c8Pairs : List (IDECode × Release) :=
  [(.WS, ⟨"2024.2", some "242.1", "2024-08-01"⟩),
   (.WS, ⟨"2024.2", some "242.9", "2024-08-02"⟩)]

/-- A product whose code is a known identity. -/
def c10Good : Product := ⟨"RD", "Rider", [⟨"2024.1", some "241.5", "2024-04-01"⟩]⟩

/-- A product whose code is not a known identity and whose release list is
empty, so the generator never reaches a lookup for it. -/
def c10Bad : Product := ⟨"NOPE", "Unknown", []⟩

/-- A product whose code is not a known identity and whose release list is
nonempty: its first release forces the `IDECode[ide.code]` lookup. -/
def c10BadNonempty : Product :=
  ⟨"NOPE", "Unknown", [⟨"1.0", some "1.0.1", "2024-01-01"⟩]⟩


/-! ### Association-list lemmas -/

theorem alookup_eq_none_iff {κ ν : Type} [DecidableEq κ] (l : List (κ × ν)) (k : κ) :
    alookup l k = none ↔ k ∉ l.map Prod.fst := by
  induction l with
  | nil => simp [alookup]
  | cons e rest ih =>
    obtain ⟨k0, v0⟩ := e
    by_cases h : k0 = k
    · subst h
      simp [alookup]
    · simp [alookup, h, ih, Ne.symm h]

theorem alookup_some_mem {κ ν : Type} [DecidableEq κ] {l : List (κ × ν)} {k : κ} {v : ν}
    (h : alookup l k = some v) : (k, v) ∈ l := by
  induction l with
  | nil => simp [alookup] at h
  | cons e rest ih =>
    obtain ⟨k0, v0⟩ := e
    by_cases hk : k0 = k
    · subst hk
      simp [alookup] at h
      simp [h]
    · simp [alookup, hk] at h
      exact List.mem_cons_of_mem _ (ih h)

theorem alookup_of_mem_nodup {κ ν : Type} [DecidableEq κ] {l : List (κ × ν)} {k : κ} {v : ν}
    (nd : (l.map Prod.fst).Nodup) (h : (k, v) ∈ l) : alookup l k = some v := by
  induction l with
  | nil => simp at h
  | cons e rest ih =>
    obtain ⟨k0, v0⟩ := e
    simp only [List.map_cons, List.nodup_cons] at nd
    rcases List.mem_cons.mp h with h1 | h1
    · obtain ⟨hk, hv⟩ := Prod.mk.injEq .. ▸ h1
      simp [alookup, hk.symm, hv]
    · have hk : k0 ≠ k := by
        intro hkk
        subst hkk
        exact nd.1 (List.mem_map.mpr ⟨(k0, v), h1, rfl⟩)
      simp [alookup, hk]
      exact ih nd.2 h1

theorem alookup_congr_perm {κ ν : Type} [DecidableEq κ] {l l' : List (κ × ν)}
    (h : l.Perm l') (nd : (l.map Prod.fst).Nodup) (k : κ) : alookup l k = alookup l' k := by
  cases hc : alookup l k with
  | some v =>
    exact (alookup_of_mem_nodup ((h.map Prod.fst).nodup nd) (h.mem_iff.mp (alookup_some_mem hc))).symm
  | none =>
    have : k ∉ l'.map Prod.fst := fun hm =>
      (alookup_eq_none_iff l k).mp hc ((h.map Prod.fst).mem_iff.mpr hm)
    exact ((alookup_eq_none_iff l' k).mpr this).symm

theorem alookup_dicSet_self {κ ν : Type} [DecidableEq κ] (l : List (κ × ν)) (k : κ) (v : ν) :
    alookup (dicSet l k v) k = some v := by
  induction l with
  | nil => simp [dicSet, alookup]
  | cons e rest ih =>
    obtain ⟨k0, v0⟩ := e
    by_cases h : k0 = k
    · simp [dicSet, h, alookup]
    · simp [dicSet, h, alookup, ih]

theorem alookup_dicSet_ne {κ ν : Type} [DecidableEq κ] (l : List (κ × ν)) {k k' : κ} (v : ν)
    (h : k ≠ k') : alookup (dicSet l k v) k' = alookup l k' := by
  induction l with
  | nil => simp [dicSet, alookup, h]
  | cons e rest ih =>
    obtain ⟨k0, v0⟩ := e
    by_cases h0 : k0 = k
    · subst h0
      simp [dicSet, alookup, h]
    · simp only [dicSet, h0, if_false]
      by_cases h1 : k0 = k'
      · simp [alookup, h1]
      · simp [alookup, h0, h1, ih]

theorem map_fst_dicSet {κ ν : Type} [DecidableEq κ] (l : List (κ × ν)) (k : κ) (v : ν) :
    (dicSet l k v).map Prod.fst =
      if k ∈ l.map Prod.fst then l.map Prod.fst else l.map Prod.fst ++ [k] := by
  induction l with
  | nil => simp [dicSet]
  | cons e rest ih =>
    obtain ⟨k0, v0⟩ := e
    by_cases h : k0 = k
    · subst h
      simp [dicSet]
    · simp only [dicSet, h, if_false, List.map_cons, ih]
      by_cases hm : k ∈ rest.map Prod.fst
      · simp [hm, Ne.symm h]
      · simp [hm, Ne.symm h]

theorem nodup_keys_dicSet {κ ν : Type} [DecidableEq κ] {l : List (κ × ν)} (k : κ) (v : ν)
    (nd : (l.map Prod.fst).Nodup) : ((dicSet l k v).map Prod.fst).Nodup := by
  rw [map_fst_dicSet]
  by_cases hm : k ∈ l.map Prod.fst
  · simpa [hm]
  · simpa [hm, List.nodup_append] using nd

theorem mem_dicSet {κ ν : Type} [DecidableEq κ] {l : List (κ × ν)} {k : κ} {v : ν}
    {e : κ × ν} (h : e ∈ dicSet l k v) : e = (k, v) ∨ e ∈ l := by
  induction l with
  | nil => simpa [dicSet] using h
  | cons e0 rest ih =>
    obtain ⟨k0, v0⟩ := e0
    by_cases h0 : k0 = k
    · subst h0
      simp only [dicSet, if_pos rfl] at h
      rcases List.mem_cons.mp h with h1 | h1
      · exact Or.inl h1
      · exact Or.inr (List.mem_cons_of_mem _ h1)
    · simp only [dicSet, h0, if_false] at h
      rcases List.mem_cons.mp h with h1 | h1
      · exact Or.inr (List.mem_cons.mpr (Or.inl h1))
      · rcases ih h1 with h2 | h2
        · exact Or.inl h2
        · exact Or.inr (List.mem_cons_of_mem _ h2)

theorem dicSet_ne_nil {κ ν : Type} [DecidableEq κ] (l : List (κ × ν)) (k : κ) (v : ν) :
    dicSet l k v ≠ [] := by
  cases l with
  | nil => simp [dicSet]
  | cons e rest =>
    obtain ⟨k0, v0⟩ := e
    by_cases h : k0 = k <;> simp [dicSet, h]

/-! ### Stable-sort lemmas -/

theorem insertSorted_perm {α : Type} (le : α → α → Bool) (a : α) (l : List α) :
    (insertSorted le a l).Perm (a :: l) := by
  induction l with
  | nil => simp [insertSorted]
  | cons b bs ih =>
    by_cases h : le a b = true
    · simp [insertSorted, h]
    · simp only [insertSorted, h, if_false]
      exact (ih.cons b).trans (List.Perm.swap a b bs)

theorem stableSort_perm {α : Type} (le : α → α → Bool) (l : List α) :
    (stableSort le l).Perm l := by
  induction l with
  | nil => simp [stableSort]
  | cons a as ih =>
    exact (insertSorted_perm le a (stableSort le as)).trans (ih.cons a)

theorem mem_insertSorted {α : Type} {le : α → α → Bool} {a x : α} {l : List α} :
    x ∈ insertSorted le a l ↔ x = a ∨ x ∈ l :=
  ((insertSorted_perm le a l).mem_iff).trans List.mem_cons

theorem insertSorted_pairwise {α : Type} {le : α → α → Bool}
    (htrans : ∀ x y z, le x y = true → le y z = true → le x z = true)
    (htotal : ∀ x y, le x y = true ∨ le y x = true)
    {a : α} {l : List α} (h : l.Pairwise (fun x y => le x y = true)) :
    (insertSorted le a l).Pairwise (fun x y => le x y = true) := by
  induction l with
  | nil => simp [insertSorted]
  | cons b bs ih =>
    rcases List.pairwise_cons.mp h with ⟨hb, hbs⟩
    by_cases hab : le a b = true
    · rw [insertSorted, if_pos hab]
      refine List.pairwise_cons.mpr ⟨?_, h⟩
      intro x hx
      rcases List.mem_cons.mp hx with h1 | h1
      · exact h1 ▸ hab
      · exact htrans a b x hab (hb x h1)
    · rw [insertSorted, if_neg hab]
      refine List.pairwise_cons.mpr ⟨?_, ih hbs⟩
      intro x hx
      rcases mem_insertSorted.mp hx with h1 | h1
      · rw [h1]
        rcases htotal a b with h2 | h2
        · exact absurd h2 hab
        · exact h2
      · exact hb x h1

theorem stableSort_pairwise {α : Type} {le : α → α → Bool}
    (htrans : ∀ x y z, le x y = true → le y z = true → le x z = true)
    (htotal : ∀ x y, le x y = true ∨ le y x = true) (l : List α) :
    (stableSort le l).Pairwise (fun x y => le x y = true) := by
  induction l with
  | nil => simp [stableSort]
  | cons a as ih => exact insertSorted_pairwise htrans htotal ih

/-! ### The version order -/

theorem keyLt_asymm : ∀ {a b : List Nat}, keyLt a b = true → keyLt b a = false
  | [], [], h => by simp [keyLt] at h
  | [], _ :: _, _ => by simp [keyLt]
  | _ :: _, [], h => by simp [keyLt] at h
  | a :: as, b :: bs, h => by
    simp only [keyLt, Bool.or_eq_true, Bool.and_eq_true, decide_eq_true_eq, beq_iff_eq] at h ⊢
    rcases h with h | ⟨hab, h⟩
    · simp [Nat.not_lt.mpr (Nat.le_of_lt h), Nat.ne_of_gt h]
    · subst hab
      simp [keyLt_asymm h]

theorem keyLt_trans : ∀ {a b c : List Nat},
    keyLt a b = true → keyLt b c = true → keyLt a c = true
  | [], _, [], _, h2 => by cases ‹List Nat› <;> simp [keyLt] at h2 ⊢
  | [], _, _ :: _, _, _ => by simp [keyLt]
  | _ :: _, [], _, h1, _ => by simp [keyLt] at h1
  | _ :: _, _ :: _, [], _, h2 => by simp [keyLt] at h2
  | a :: as, b :: bs, c :: cs, h1, h2 => by
    simp only [keyLt, Bool.or_eq_true, Bool.and_eq_true, decide_eq_true_eq, beq_iff_eq]
      at h1 h2 ⊢
    rcases h1 with h1 | ⟨hab, h1⟩ <;> rcases h2 with h2 | ⟨hbc, h2⟩
    · exact Or.inl (Nat.lt_trans h1 h2)
    · exact Or.inl (hbc ▸ h1)
    · exact Or.inl (hab ▸ h2)
    · exact Or.inr ⟨hab.trans hbc, keyLt_trans h1 h2⟩

theorem keyLt_total_eq : ∀ {a b : List Nat},
    keyLt a b = false → keyLt b a = false → a = b
  | [], [], _, _ => rfl
  | [], _ :: _, h1, _ => by simp [keyLt] at h1
  | _ :: _, [], _, h2 => by simp [keyLt] at h2
  | a :: as, b :: bs, h1, h2 => by
    simp only [keyLt, Bool.or_eq_false_iff, Bool.and_eq_false_iff, decide_eq_false_iff_not,
      beq_eq_false_iff_ne, ne_eq] at h1 h2
    have hab : a = b := Nat.le_antisymm (Nat.not_lt.mp h2.1) (Nat.not_lt.mp h1.1)
    subst hab
    rcases h1.2 with h | h
    · exact absurd rfl h
    · rcases h2.2 with h' | h'
      · exact absurd rfl h'
      · rw [keyLt_total_eq h h']

theorem versionDescLe_trans (x y z : RawVersion × Row)
    (h1 : versionDescLe x y = true) (h2 : versionDescLe y z = true) :
    versionDescLe x z = true := by
  simp only [versionDescLe, Bool.not_eq_true'] at h1 h2 ⊢
  cases hxz : keyLt (versionKey x.1) (versionKey z.1) with
  | false => rfl
  | true =>
    cases hzy : keyLt (versionKey z.1) (versionKey y.1) with
    | true =>
      have := keyLt_trans hxz hzy
      rw [h1] at this
      exact this.symm
    | false =>
      have heq := keyLt_total_eq h2 hzy
      rw [heq] at h1
      rw [h1] at hxz
      exact hxz.symm

theorem versionDescLe_total (x y : RawVersion × Row) :
    versionDescLe x y = true ∨ versionDescLe y x = true := by
  by_cases h : keyLt (versionKey x.1) (versionKey y.1) = true
  · exact Or.inr (by simp [versionDescLe, keyLt_asymm h])
  · exact Or.inl (by simp [versionDescLe, Bool.not_eq_true _ ▸ h])

/-! ### Characterizing the version table -/

theorem matrixCell_tableStep (t : Table) (q : IDECode × Release) (v : RawVersion) (c : IDECode) :
    matrixCell (tableStep t q) v c =
      match q.2.build with
      | some b => if q.1 = c ∧ q.2.version = v then some (some b) else matrixCell t v c
      | none => matrixCell t v c := by
  cases hb : q.2.build with
  | none => simp [tableStep, hb]
  | some b =>
    simp only [tableStep, hb]
    by_cases hv : q.2.version = v
    · subst hv
      by_cases hc : q.1 = c
      · subst hc
        simp [matrixCell, alookup_dicSet_self]
      · simp only [hc, false_and, if_false, matrixCell]
        rw [alookup_dicSet_self]
        cases hr : alookup t q.2.version with
        | none => simp [hr, alookup_dicSet_ne _ _ hc, alookup, hc]
        | some r => simp [hr, alookup_dicSet_ne _ _ hc]
    · have hne : q.2.version ≠ v := hv
      simp only [hv, and_false, if_false, matrixCell]
      rw [alookup_dicSet_ne _ _ hne]

theorem matrixCell_foldl (pairs : List (IDECode × Release)) (t : Table) (v : RawVersion)
    (c : IDECode) :
    matrixCell (pairs.foldl tableStep t) v c =
      match lastPresentBuild pairs c v with
      | some b => some (some b)
      | none => matrixCell t v c := by
  induction pairs generalizing t with
  | nil => simp [lastPresentBuild]
  | cons q rest ih =>
    rw [List.foldl_cons, ih (tableStep t q)]
    cases hrest : lastPresentBuild rest c v with
    | some b => simp [lastPresentBuild, hrest]
    | none =>
      simp only [lastPresentBuild, hrest]
      rw [matrixCell_tableStep]
      cases hb : q.2.build with
      | none =>
        by_cases hm : q.1 = c ∧ q.2.version = v <;> simp [hm, hb]
      | some b =>
        by_cases hm : q.1 = c ∧ q.2.version = v <;> simp [hm, hb]

/-- Full characterization of a matrix cell of the table built by the loop:
the cell at `(v, c)` exists iff some release for `(c, v)` carried a present
build, and then it holds the last such build. -/
theorem matrixCell_versionTable (pairs : List (IDECode × Release)) (v : RawVersion)
    (c : IDECode) :
    matrixCell (versionTable pairs) v c = (lastPresentBuild pairs c v).map some := by
  rw [versionTable, matrixCell_foldl]
  cases h : lastPresentBuild pairs c v <;> simp [matrixCell, alookup]

theorem tableStep_preserves_rows {t : Table} (q : IDECode × Release)
    (h : ∀ e ∈ t, e.2 ≠ [] ∧ ∀ cl ∈ e.2, cl.2.isSome = true) :
    ∀ e ∈ tableStep t q, e.2 ≠ [] ∧ ∀ cl ∈ e.2, cl.2.isSome = true := by
  cases hb : q.2.build with
  | none => simpa [tableStep, hb] using h
  | some b =>
    intro e he
    simp only [tableStep, hb] at he
    rcases mem_dicSet he with h1 | h1
    · subst h1
      refine ⟨dicSet_ne_nil _ _ _, ?_⟩
      intro cl hcl
      rcases mem_dicSet hcl with h2 | h2
      · subst h2
        rfl
      · cases hr : alookup t q.2.version with
        | none => simp [hr] at h2
        | some r =>
          simp only [hr, Option.getD_some] at h2
          exact (h (q.2.version, r) (alookup_some_mem hr)).2 cl h2
    · exact h e h1

theorem versionTable_rows (pairs : List (IDECode × Release)) :
    ∀ e ∈ versionTable pairs, e.2 ≠ [] ∧ ∀ cl ∈ e.2, cl.2.isSome = true := by
  rw [versionTable]
  suffices h : ∀ t : Table, (∀ e ∈ t, e.2 ≠ [] ∧ ∀ cl ∈ e.2, cl.2.isSome = true) →
      ∀ e ∈ pairs.foldl tableStep t, e.2 ≠ [] ∧ ∀ cl ∈ e.2, cl.2.isSome = true by
    exact h [] (by simp)
  induction pairs with
  | nil => intro t ht; simpa using ht
  | cons q rest ih =>
    intro t ht
    rw [List.foldl_cons]
    exact ih (tableStep t q) (tableStep_preserves_rows q ht)

theorem nodup_keys_tableStep {t : Table} (q : IDECode × Release)
    (nd : (t.map Prod.fst).Nodup) : ((tableStep t q).map Prod.fst).Nodup := by
  cases hb : q.2.build with
  | none => simpa [tableStep, hb] using nd
  | some b =>
    simp only [tableStep, hb]
    exact nodup_keys_dicSet _ _ nd

theorem nodup_keys_versionTable (pairs : List (IDECode × Release)) :
    ((versionTable pairs).map Prod.fst).Nodup := by
  rw [versionTable]
  suffices h : ∀ t : Table, (t.map Prod.fst).Nodup →
      ((pairs.foldl tableStep t).map Prod.fst).Nodup by
    exact h [] (by simp)
  induction pairs with
  | nil => intro t ht; simpa using ht
  | cons q rest ih =>
    intro t ht
    rw [List.foldl_cons]
    exact ih (tableStep t q) (nodup_keys_tableStep q ht)

theorem keys_tableStep_subset {t : Table} (q : IDECode × Release) {v : RawVersion}
    (h : v ∈ (tableStep t q).map Prod.fst) :
    v ∈ t.map Prod.fst ∨ v = q.2.version := by
  cases hb : q.2.build with
  | none =>
    rw [tableStep, hb] at h
    exact Or.inl h
  | some b =>
    rw [tableStep, hb] at h
    rw [map_fst_dicSet] at h
    by_cases hm : q.2.version ∈ t.map Prod.fst
    · rw [if_pos hm] at h
      exact Or.inl h
    · rw [if_neg hm] at h
      rcases List.mem_append.mp h with h1 | h1
      · exact Or.inl h1
      · exact Or.inr (List.mem_singleton.mp h1)

theorem keys_foldl_subset : ∀ (pairs : List (IDECode × Release)) (t : Table) (w : RawVersion),
    w ∈ (pairs.foldl tableStep t).map Prod.fst →
      w ∈ t.map Prod.fst ∨ ∃ q ∈ pairs, q.2.version = w := by
  intro pairs
  induction pairs with
  | nil => intro t w hw; exact Or.inl (by simpa using hw)
  | cons q rest ih =>
    intro t w hw
    rw [List.foldl_cons] at hw
    rcases ih (tableStep t q) w hw with h1 | h1
    · rcases keys_tableStep_subset q h1 with h2 | h2
      · exact Or.inl h2
      · exact Or.inr ⟨q, List.mem_cons_self q rest, h2.symm⟩
    · rcases h1 with ⟨q', hq', hv'⟩
      exact Or.inr ⟨q', List.mem_cons_of_mem q hq', hv'⟩

theorem keys_versionTable_subset (pairs : List (IDECode × Release)) {v : RawVersion}
    (h : v ∈ (versionTable pairs).map Prod.fst) : ∃ q ∈ pairs, q.2.version = v := by
  rw [versionTable] at h
  rcases keys_foldl_subset pairs [] v h with h1 | h1
  · simp at h1
  · exact h1

theorem versionTable_filter_present (pairs : List (IDECode × Release)) :
    versionTable (pairs.filter (fun q => q.2.build.isSome)) = versionTable pairs := by
  rw [versionTable, versionTable]
  suffices h : ∀ t : Table,
      (pairs.filter (fun q => q.2.build.isSome)).foldl tableStep t =
        pairs.foldl tableStep t by
    exact h []
  induction pairs with
  | nil => intro t; rfl
  | cons q rest ih =>
    intro t
    cases hb : q.2.build with
    | none =>
      have hstep : tableStep t q = t := by simp [tableStep, hb]
      simp [List.filter_cons, hb, ih, hstep]
    | some b =>
      simp [List.filter_cons, hb, ih]

theorem map_version_ok_elim {pairs : List (IDECode × Release)} {m : Table}
    (h : map_version_to_build_numbers pairs = .ok m) :
    m = stableSort versionDescLe (versionTable pairs) ∧
      firstUnparsable (versionTable pairs) = none := by
  cases hf : firstUnparsable (versionTable pairs) with
  | none =>
    rw [map_version_to_build_numbers] at h
    simp only [hf] at h
    exact ⟨(Except.ok.injEq .. ▸ h).symm, rfl⟩
  | some v =>
    rw [map_version_to_build_numbers] at h
    simp [hf] at h

theorem matrixCell_stableSort (t : Table) (nd : (t.map Prod.fst).Nodup) (v : RawVersion)
    (c : IDECode) : matrixCell (stableSort versionDescLe t) v c = matrixCell t v c := by
  have hperm := stableSort_perm versionDescLe t
  have nd' : ((stableSort versionDescLe t).map Prod.fst).Nodup :=
    ((hperm.map Prod.fst).symm.nodup) nd
  rw [matrixCell, matrixCell, alookup_congr_perm hperm nd' v]

/-! ### The identity registry -/

theorem IDECode.name_injective : ∀ a b : IDECode, a.name = b.name → a = b := by decide

theorem IDECode.get_eq_some_iff (s : String) (c : IDECode) :
    IDECode.get s = some c ↔ c.name = s := by
  constructor
  · intro h
    have := List.find?_some h
    exact beq_iff_eq.mp this
  · intro h
    subst h
    cases c <;> rfl

theorem IDECode.get_eq_none_iff (s : String) :
    IDECode.get s = none ↔ ∀ c : IDECode, c.name ≠ s := by
  constructor
  · intro h c hc
    rw [← IDECode.get_eq_some_iff] at hc
    rw [h] at hc
    exact Option.noConfusion hc
  · intro h
    cases hg : IDECode.get s with
    | none => rfl
    | some c => exact absurd ((IDECode.get_eq_some_iff s c).mp hg) (h c)

/-! ### The releases generator -/

theorem pairsOf_cons_known {p : Product} {c : IDECode} (rest : List Product)
    (hc : IDECode.get p.code = some c) :
    pairsOf (p :: rest) = p.releases.map (fun r => (c, r)) ++ pairsOf rest := by
  rw [pairsOf, List.flatMap_cons, hc]
  rfl

theorem releases_ok_of_known : ∀ {ides : List Product},
    (∀ p ∈ ides, (IDECode.get p.code).isSome = true) →
      IDEList.releases ides = .ok (pairsOf ides) := by
  intro ides
  induction ides with
  | nil => intro _; rfl
  | cons p rest ih =>
    intro h
    obtain ⟨c, hc⟩ := Option.isSome_iff_exists.mp (h p (List.mem_cons_self p rest))
    have hrest := ih (fun p' hp' => h p' (List.mem_cons_of_mem p hp'))
    rw [pairsOf_cons_known rest hc]
    cases hrel : p.releases with
    | nil =>
      rw [IDEList.releases, hrel, hrest]
      simp
    | cons r rs =>
      rw [IDEList.releases, hrel, hc, hrest]
      rfl

theorem releases_error_at_first : ∀ {pre : List Product} {bad : Product} (post : List Product),
    (∀ p ∈ pre, (IDECode.get p.code).isSome = true) → IDECode.get bad.code = none →
      bad.releases ≠ [] →
      IDEList.releases (pre ++ bad :: post) = .error (keyErrorMessage bad.code) := by
  intro pre
  induction pre with
  | nil =>
    intro bad post _ hbad hrel
    cases hb : bad.releases with
    | nil => exact absurd hb hrel
    | cons r rs => rw [List.nil_append, IDEList.releases, hb, hbad]
  | cons p rest ih =>
    intro bad post h hbad hrel
    obtain ⟨c, hc⟩ := Option.isSome_iff_exists.mp (h p (List.mem_cons_self p rest))
    have htail := ih post (fun p' hp' => h p' (List.mem_cons_of_mem p hp')) hbad hrel
    rw [List.cons_append, IDEList.releases]
    cases hpr : p.releases with
    | nil => exact htail
    | cons r rs =>
      rw [hc, htail]
      rfl

theorem releases_skips_empty_releases : ∀ (pre : List Product) {bad : Product}
    (post : List Product), bad.releases = [] →
      IDEList.releases (pre ++ bad :: post) = IDEList.releases (pre ++ post) := by
  intro pre
  induction pre with
  | nil =>
    intro bad post hrel
    rw [List.nil_append, List.nil_append, IDEList.releases, hrel]
  | cons p rest ih =>
    intro bad post hrel
    rw [List.cons_append, List.cons_append, IDEList.releases, IDEList.releases,
      ih post hrel]

theorem filterMap_const_none {α β : Type} (l : List α) :
    l.filterMap (fun _ => (none : Option β)) = [] := by
  induction l with
  | nil => rfl
  | cons a rest ih => simp [List.filterMap_cons, ih]

/-! ### The grouped view -/

theorem alookup_appendGroup (g : List (String × List Release)) (k k' : String) (r : Release) :
    alookup (appendGroup g k r) k' =
      if k = k' then some ((alookup g k).getD [] ++ [r]) else alookup g k' := by
  induction g with
  | nil =>
    by_cases h : k = k' <;> simp [appendGroup, alookup, h]
  | cons e rest ih =>
    obtain ⟨k0, rs⟩ := e
    by_cases h0 : k0 = k
    · subst h0
      by_cases h1 : k0 = k'
      · subst h1
        simp [appendGroup, alookup]
      · simp [appendGroup, alookup, h1]
    · simp only [appendGroup, h0, if_false]
      by_cases h1 : k0 = k'
      · subst h1
        have : ¬ k0 = k := h0
        simp [alookup, Ne.symm h0]
      · simp [alookup, h0, h1, ih]

theorem alookup_groupFold : ∀ (pairs : List (IDECode × Release))
    (g : List (String × List Release)) (k : String),
    (alookup (pairs.foldl (fun g q => appendGroup g q.1.name q.2) g) k).getD [] =
      (alookup g k).getD [] ++
        pairs.filterMap (fun q => if q.1.name = k then some q.2 else none) := by
  intro pairs
  induction pairs with
  | nil => intro g k; simp
  | cons q rest ih =>
    intro g k
    rw [List.foldl_cons, ih]
    by_cases h : q.1.name = k
    · rw [alookup_appendGroup, if_pos h, Option.getD_some, h]
      simp [List.filterMap_cons, h]
    · rw [alookup_appendGroup, if_neg h]
      simp [List.filterMap_cons, h]

theorem alookup_groupReleases (pairs : List (IDECode × Release)) (k : String) :
    (alookup (groupReleases pairs) k).getD [] =
      pairs.filterMap (fun q => if q.1.name = k then some q.2 else none) := by
  rw [groupReleases, alookup_groupFold]
  simp [alookup]

theorem pairsOf_filterMap : ∀ (ides : List Product),
    (∀ p ∈ ides, (IDECode.get p.code).isSome = true) → ∀ c : IDECode,
      (pairsOf ides).filterMap (fun q => if q.1.name = c.name then some q.2 else none) =
        (ides.filter (fun p => p.code == c.name)).flatMap Product.releases := by
  intro ides
  induction ides with
  | nil => intro _ c; rfl
  | cons p rest ih =>
    intro h c
    obtain ⟨c', hc'⟩ := Option.isSome_iff_exists.mp (h p (List.mem_cons_self p rest))
    have hcode : c'.name = p.code := (IDECode.get_eq_some_iff p.code c').mp hc'
    have hrest := ih (fun p' hp' => h p' (List.mem_cons_of_mem p hp')) c
    rw [pairsOf_cons_known rest hc', List.filterMap_append, List.filterMap_map]
    by_cases hcc : c' = c
    · subst hcc
      have hpc : (p.code == c'.name) = true := beq_iff_eq.mpr hcode.symm
      rw [List.filter_cons, hpc]
      simp [Function.comp_def, hrest]
    · have hne : c'.name ≠ c.name := fun hn => hcc (IDECode.name_injective c' c hn)
      have hpc : (p.code == c.name) = false := by
        rw [beq_eq_false_iff_ne]
        intro hn
        exact hne (hcode.trans hn)
      rw [List.filter_cons, hpc]
      simp [Function.comp_def, hne, hrest, filterMap_const_none]

/-! ### The code order used by the code/name index -/

theorem charListLe_trans : ∀ {a b c : List Char},
    charListLe a b = true → charListLe b c = true → charListLe a c = true
  | [], _, c, _, _ => by cases c <;> rfl
  | _ :: _, [], _, h1, _ => by simp [charListLe] at h1
  | _ :: _, _ :: _, [], _, h2 => by simp [charListLe] at h2
  | a :: as, b :: bs, c :: cs, h1, h2 => by
    simp only [charListLe] at h1 h2 ⊢
    by_cases hab : a.toNat = b.toNat
    · rw [if_pos hab] at h1
      by_cases hbc : b.toNat = c.toNat
      · rw [if_pos hbc] at h2
        rw [if_pos (hab.trans hbc)]
        exact charListLe_trans h1 h2
      · rw [if_neg hbc] at h2
        have hlt : b.toNat < c.toNat := of_decide_eq_true h2
        have hne : a.toNat ≠ c.toNat := by rw [hab]; exact Nat.ne_of_lt hlt
        rw [if_neg hne, hab]
        exact h2
    · rw [if_neg hab] at h1
      have hlt1 : a.toNat < b.toNat := of_decide_eq_true h1
      by_cases hbc : b.toNat = c.toNat
      · have hlt : a.toNat < c.toNat := hbc ▸ hlt1
        rw [if_neg (Nat.ne_of_lt hlt)]
        exact decide_eq_true hlt
      · rw [if_neg hbc] at h2
        have hlt2 : b.toNat < c.toNat := of_decide_eq_true h2
        have hlt : a.toNat < c.toNat := Nat.lt_trans hlt1 hlt2
        rw [if_neg (Nat.ne_of_lt hlt)]
        exact decide_eq_true hlt

theorem charListLe_total : ∀ (a b : List Char), charListLe a b = true ∨ charListLe b a = true
  | [], b => Or.inl (by cases b <;> rfl)
  | _ :: _, [] => Or.inr rfl
  | a :: as, b :: bs => by
    simp only [charListLe]
    by_cases hab : a.toNat = b.toNat
    · rw [if_pos hab, if_pos hab.symm]
      exact charListLe_total as bs
    · rw [if_neg hab, if_neg (fun h => hab h.symm)]
      rcases Nat.lt_or_ge a.toNat b.toNat with h | h
      · exact Or.inl (decide_eq_true h)
      · have hlt : b.toNat < a.toNat := Nat.lt_of_le_of_ne h (fun he => hab he.symm)
        exact Or.inr (decide_eq_true hlt)

theorem length_filter_key_eq {α : Type} (key : α → String) :
    ∀ (l : List α) (s : String), (l.map key).Nodup → s ∈ l.map key →
      (l.filter (fun x => key x == s)).length = 1 := by
  intro l
  induction l with
  | nil => intro s _ hs; simp at hs
  | cons a rest ih =>
    intro s hn hs
    simp only [List.map_cons, List.nodup_cons] at hn
    rw [List.filter_cons]
    by_cases ha : key a = s
    · have hb : (key a == s) = true := beq_iff_eq.mpr ha
      have hnone : rest.filter (fun x => key x == s) = [] := by
        rw [List.filter_eq_nil_iff]
        intro x hx hxe
        have : key x = key a := (beq_iff_eq.mp hxe).trans ha.symm
        exact hn.1 (this ▸ List.mem_map_of_mem key hx)
      simp [hb, hnone]
    · have hb : (key a == s) = false := beq_eq_false_iff_ne.mpr ha
      have hs' : s ∈ rest.map key := by
        rcases List.mem_cons.mp hs with h1 | h1
        · exact absurd h1.symm ha
        · exact h1
      simp only [hb, Bool.false_eq_true, if_false]
      exact ih s hn.2 hs'

/-! ### Remaining helper lemmas -/

theorem firstUnparsable_eq_none {pairs : List (IDECode × Release)}
    (hp : ∀ q ∈ pairs, (parseSegments q.2.version).isSome = true) :
    firstUnparsable (versionTable pairs) = none := by
  rw [firstUnparsable, List.find?_eq_none]
  intro v hv
  obtain ⟨q, hq, hqv⟩ := keys_versionTable_subset pairs hv
  have hs := hp q hq
  rw [hqv] at hs
  simp [Option.isNone_eq_false_iff, Option.isSome_iff_ne_none.mp hs]

theorem map_version_eq_ok {pairs : List (IDECode × Release)}
    (hnone : firstUnparsable (versionTable pairs) = none) :
    map_version_to_build_numbers pairs =
      .ok (stableSort versionDescLe (versionTable pairs)) := by
  rw [map_version_to_build_numbers]
  simp only [hnone]

theorem lastPresentBuild_isSome : ∀ {pairs : List (IDECode × Release)}
    {q : IDECode × Release}, q ∈ pairs → q.2.build.isSome = true →
      (lastPresentBuild pairs q.1 q.2.version).isSome = true := by
  intro pairs
  induction pairs with
  | nil => intro q hq _; simp at hq
  | cons p rest ih =>
    intro q hq hb
    rw [lastPresentBuild]
    cases hrest : lastPresentBuild rest q.1 q.2.version with
    | some b => rfl
    | none =>
      rcases List.mem_cons.mp hq with h1 | h1
      · rw [← h1, if_pos ⟨rfl, rfl⟩]
        exact hb
      · have := ih h1 hb
        rw [hrest] at this
        exact absurd this (by simp)

/-! ### The claims -/

/-- C1, counterexample: on an input whose version strings all parse, the matrix
has adjacent row keys `("2024.1", "2024.1.0")`, and segment-wise integer
comparison of the dot-separated segments does not give `"2024.1" > "2024.1.0"`
— the two keys denote the same PEP 440 version, and the stable sort keeps
their insertion order, so the rows are not strictly descending as claimed. -/
theorem C1_counterexample :
    (∀ q ∈ c1Pairs, (parseSegments q.2.version).isSome = true) ∧
    map_version_to_build_numbers c1Pairs =
      .ok [("2024.1", [(.IIU, some "241.1")]), ("2024.1.0", [(.IIU, some "241.2")])] ∧
    segmentwiseGt "2024.1" "2024.1.0" = false := by
  refine ⟨by decide, ?_, by decide⟩
  rfl

/-- C1, amended: for every input collection of pairs whose version strings all
parse, the matrix rows are ordered by non-increasing version: adjacent row
keys `(v1, v2)` satisfy `¬(v1 < v2)` under segment-wise integer comparison
of their dot-separated segments with trailing zeros stripped (the comparison
`packaging.version.Version` implements), and `v1 > v2` holds strictly unless
the two distinct strings denote the same version (as `"2024.1"` and
`"2024.1.0"` do).  In particular `"2024.10"` sorts above `"2024.9"`. -/
theorem C1_rows_descending (pairs : List (IDECode × Release))
    (hp : ∀ q ∈ pairs, (parseSegments q.2.version).isSome = true) :
    ∃ m, map_version_to_build_numbers pairs = .ok m ∧
      m.Chain' (fun r1 r2 => ∀ k1 k2, parseSegments r1.1 = some k1 →
        parseSegments r2.1 = some k2 →
          keyLt (stripZeros k1) (stripZeros k2) = false ∧
          (stripZeros k1 ≠ stripZeros k2 → keyLt (stripZeros k2) (stripZeros k1) = true)) := by
  refine ⟨stableSort versionDescLe (versionTable pairs),
    map_version_eq_ok (firstUnparsable_eq_none hp), ?_⟩
  have hpw := stableSort_pairwise versionDescLe_trans versionDescLe_total
    (versionTable pairs)
  refine hpw.chain'.imp ?_
  intro r1 r2 hle k1 k2 hk1 hk2
  have hkey1 : versionKey r1.1 = stripZeros k1 := by rw [versionKey, hk1, Option.getD_some]
  have hkey2 : versionKey r2.1 = stripZeros k2 := by rw [versionKey, hk2, Option.getD_some]
  rw [versionDescLe, hkey1, hkey2, Bool.not_eq_true'] at hle
  refine ⟨hle, ?_⟩
  intro hne
  cases hba : keyLt (stripZeros k2) (stripZeros k1) with
  | true => rfl
  | false => exact absurd (keyLt_total_eq hle hba) hne

/-- C1, witness for the amended theorem: a concrete run where every version
parses; in its output `"2024.10"` sorts above `"2024.9"`. -/
theorem C1_rows_descending_witness :
    (∀ q ∈ c1wPairs, (parseSegments q.2.version).isSome = true) ∧
    (∃ m, map_version_to_build_numbers c1wPairs = .ok m ∧
      m.Chain' (fun r1 r2 => ∀ k1 k2, parseSegments r1.1 = some k1 →
        parseSegments r2.1 = some k2 →
          keyLt (stripZeros k1) (stripZeros k2) = false ∧
          (stripZeros k1 ≠ stripZeros k2 → keyLt (stripZeros k2) (stripZeros k1) = true))) :=
  ⟨by decide, C1_rows_descending c1wPairs (by decide)⟩

/-- C2: a release with a present build identifier always yields a non-absent
cell at `(version, identity)` in the matrix, and releases with an absent
build identifier contribute nothing: the matrix of the input filtered to
present builds is exactly the matrix of the whole input. -/
theorem C2_present_build_cell (pairs : List (IDECode × Release)) :
    (∀ m, map_version_to_build_numbers pairs = .ok m →
      ∀ q ∈ pairs, q.2.build.isSome = true →
        ∃ b, matrixCell m q.2.version q.1 = some (some b)) ∧
    map_version_to_build_numbers (pairs.filter (fun q => q.2.build.isSome)) =
      map_version_to_build_numbers pairs := by
  constructor
  · intro m h q hq hb
    obtain ⟨hm, -⟩ := map_version_ok_elim h
    subst hm
    rw [matrixCell_stableSort _ (nodup_keys_versionTable pairs), matrixCell_versionTable]
    obtain ⟨b, hlast⟩ := Option.isSome_iff_exists.mp (lastPresentBuild_isSome hq hb)
    exact ⟨b, by rw [hlast]; rfl⟩
  · rw [map_version_to_build_numbers, map_version_to_build_numbers,
      versionTable_filter_present]

/-- C2, witness: on the spec's example input the present-build release of IIU
produces a non-absent cell at `("2023.3", IIU)`. -/
theorem C2_present_build_cell_witness :
    ∃ b, matrixCell [("2023.3", [(IDECode.IIU, some "233.100")])] "2023.3" .IIU =
      some (some b) :=
  (C2_present_build_cell c2wPairs).1 [("2023.3", [(.IIU, some "233.100")])] rfl
    (.IIU, ⟨"2023.3", some "233.100", "2023-11-01"⟩) (by decide) (by decide)

/-- C3: on an input containing a release whose version string `"latest"` is not
dotted-numeric and whose build is present, the sort step of the aggregator
fails with the `InvalidVersion` error naming the offending string, rather
than producing any matrix. -/
theorem C3_unparsable_version_fatal :
    map_version_to_build_numbers c3Pairs = .error (invalidVersionMessage "latest") := rfl

/-- C4: every row of a produced matrix is a nonempty mapping all of whose cell
values are non-absent build identifiers. -/
theorem C4_rows_never_empty (pairs : List (IDECode × Release)) (m : Table)
    (h : map_version_to_build_numbers pairs = .ok m) :
    ∀ e ∈ m, e.2 ≠ [] ∧ ∀ cl ∈ e.2, cl.2.isSome = true := by
  obtain ⟨hm, -⟩ := map_version_ok_elim h
  subst hm
  intro e he
  exact versionTable_rows pairs e
    ((stableSort_perm versionDescLe (versionTable pairs)).mem_iff.mp he)

/-- C4, witness: the invariant evaluated on the row of a concrete produced
matrix. -/
theorem C4_rows_never_empty_witness :
    ([(IDECode.RR, some "241.7")] : Row) ≠ [] ∧
      ∀ cl ∈ [(IDECode.RR, some "241.7")], cl.2.isSome = true :=
  C4_rows_never_empty c4wPairs [("2024.1", [(.RR, some "241.7")])] rfl
    ("2024.1", [(.RR, some "241.7")]) (by decide)

/-- C5: for a product list whose codes are all known identities, the grouped
view keeps, for each identity, exactly that identity's original releases in
the original per-product input order — including releases whose build
identifier is absent. -/
theorem C5_grouped_view_preserves (ides : List Product)
    (h : ∀ p ∈ ides, (IDECode.get p.code).isSome = true) (c : IDECode) :
    ∃ g, update_json ides = .ok g ∧
      (alookup g c.name).getD [] =
        (ides.filter (fun p => p.code == c.name)).flatMap Product.releases := by
  refine ⟨groupReleases (pairsOf ides), ?_, ?_⟩
  · rw [update_json, releases_ok_of_known h]
    rfl
  · rw [alookup_groupReleases, pairsOf_filterMap ides h c]

/-- C5, witness: on a concrete product list, IIU's group is its two original
releases (one with an absent build) in input order. -/
theorem C5_grouped_view_preserves_witness :
    (∃ g, update_json c5IDEs = .ok g ∧
      (alookup g IDECode.IIU.name).getD [] =
        (c5IDEs.filter (fun p => p.code == IDECode.IIU.name)).flatMap Product.releases) ∧
    (c5IDEs.filter (fun p => p.code == IDECode.IIU.name)).flatMap Product.releases =
      [⟨"2023.3", some "233.100", "2023-11-01"⟩, ⟨"2024.1", none, "2024-02-01"⟩] :=
  ⟨C5_grouped_view_preserves c5IDEs (by decide) .IIU, by decide⟩

/-- C6: in the grouped JSON object, every product's releases appear under the
key that is its identity's `name` (the enum member name, i.e. the short
code such as `"CL"`). -/
theorem C6_grouped_keys_are_names (ides : List Product)
    (h : ∀ p ∈ ides, (IDECode.get p.code).isSome = true)
    (p : Product) (hp : p ∈ ides) (c : IDECode) (hc : IDECode.get p.code = some c)
    (r : Release) (hr : r ∈ p.releases) :
    ∃ g rs, update_json ides = .ok g ∧ alookup g c.name = some rs ∧ r ∈ rs := by
  have hkey := alookup_groupReleases (pairsOf ides) c.name
  rw [pairsOf_filterMap ides h c] at hkey
  have hcn : c.name = p.code := (IDECode.get_eq_some_iff p.code c).mp hc
  have hpf : p ∈ ides.filter (fun p => p.code == c.name) :=
    List.mem_filter.mpr ⟨hp, beq_iff_eq.mpr hcn.symm⟩
  have hmem : r ∈ (ides.filter (fun p => p.code == c.name)).flatMap Product.releases :=
    List.mem_flatMap.mpr ⟨p, hpf, hr⟩
  rw [← hkey] at hmem
  cases hl : alookup (groupReleases (pairsOf ides)) c.name with
  | none =>
    rw [hl] at hmem
    simp at hmem
  | some rs =>
    rw [hl] at hmem
    refine ⟨groupReleases (pairsOf ides), rs, ?_, hl, by simpa using hmem⟩
    rw [update_json, releases_ok_of_known h]
    rfl

/-- C6, witness: CLion's release is stored under the key `"CL"`, the `name` of
its identity. -/
theorem C6_grouped_keys_are_names_witness :
    ∃ g rs, update_json c6IDEs = .ok g ∧ alookup g IDECode.CL.name = some rs ∧
      (⟨"2024.1", none, "2024-04-01"⟩ : Release) ∈ rs :=
  C6_grouped_keys_are_names c6IDEs (by decide) ⟨"CL", "CLion", [⟨"2024.1", none, "2024-04-01"⟩]⟩
    (by decide) .CL (by decide) ⟨"2024.1", none, "2024-04-01"⟩ (by decide)

/-- C7, counterexample: with two fetched products sharing the code `"X"`, the
index holds two entries for that code, not exactly one per distinct code. -/
theorem C7_counterexample :
    update_all_codes c7Products = [("X", "first"), ("X", "second")] ∧
    ((update_all_codes c7Products).filter (fun e => e.1 == "X")).length ≠ 1 := by
  refine ⟨rfl, ?_⟩
  decide

/-- C7, amended: the code/name index holds exactly one `{code, name}` entry per
fetched *product* (so one per distinct code whenever the fetched codes are
pairwise distinct, which the claim tacitly assumed), is sorted ascending by
code, and includes every fetched product, known identity or not. -/
theorem C7_codes_index (products : List Product) :
    (update_all_codes products).Perm (products.map (fun p => (p.code, p.name))) ∧
    (update_all_codes products).Chain'
      (fun a b => charListLe a.1.toList b.1.toList = true) ∧
    ((products.map Product.code).Nodup →
      ∀ s ∈ products.map Product.code,
        ((update_all_codes products).filter (fun e => e.1 == s)).length = 1) := by
  refine ⟨stableSort_perm _ _, ?_, ?_⟩
  · have hpw := @stableSort_pairwise (String × String)
      (fun a b => charListLe a.1.toList b.1.toList)
      (fun x y z h1 h2 => charListLe_trans h1 h2)
      (fun x y => charListLe_total x.1.toList y.1.toList)
      (products.map (fun p => (p.code, p.name)))
    exact hpw.chain'
  · intro hnd s hs
    have hperm := (stableSort_perm
      (fun a b : String × String => charListLe a.1.toList b.1.toList)
      (products.map (fun p => (p.code, p.name)))).filter (fun e => e.1 == s)
    rw [update_all_codes, hperm.length_eq, List.filter_map, List.length_map]
    exact length_filter_key_eq Product.code products s hnd hs

/-- C7, witness for the amended theorem: distinct codes, one entry each. -/
theorem C7_codes_index_witness :
    ∀ s ∈ c7wProducts.map Product.code,
      ((update_all_codes c7wProducts).filter (fun e => e.1 == s)).length = 1 :=
  (C7_codes_index c7wProducts).2.2 (by decide)

/-- C8: when the same `(identity, version)` pair occurs several times with
present builds, the produced cell holds the last-seen build in input order. -/
theorem C8_last_write_wins (pairs : List (IDECode × Release)) (m : Table)
    (h : map_version_to_build_numbers pairs = .ok m) (c : IDECode) (v : RawVersion)
    (b : BuildNumber) (hl : lastPresentBuild pairs c v = some b) :
    matrixCell m v c = some (some b) := by
  obtain ⟨hm, -⟩ := map_version_ok_elim h
  subst hm
  rw [matrixCell_stableSort _ (nodup_keys_versionTable pairs), matrixCell_versionTable, hl]
  rfl

/-- C8, witness: two WebStorm builds for `2024.2`; the cell holds the second. -/
theorem C8_last_write_wins_witness :
    matrixCell [("2024.2", [(IDECode.WS, some "242.9")])] "2024.2" .WS =
      some (some "242.9") :=
  C8_last_write_wins c8Pairs [("2024.2", [(.WS, some "242.9")])] rfl .WS "2024.2"
    "242.9" (by decide)

/-- C9: the registry lookup is a total function returning the identity whose
member name is the given string, and `none` exactly when no member name
matches — absence is a value, not an exception. -/
theorem C9_registry_get_total (s : String) :
    (∀ c : IDECode, IDECode.get s = some c ↔ c.name = s) ∧
    (IDECode.get s = none ↔ ∀ c : IDECode, c.name ≠ s) :=
  ⟨fun c => IDECode.get_eq_some_iff s c, IDECode.get_eq_none_iff s⟩

/-- C10, counterexample: without the all-codes-known precondition the iterator
does *not* always raise on the first unknown code.  The `IDECode[ide.code]`
lookup sits in the innermost loop of the generator expression, so an
unknown-code product with an empty release list never performs it: the
traversal of `[c10Bad]` succeeds with no pairs instead of raising. -/
theorem C10_counterexample :
    IDECode.get c10Bad.code = none ∧ IDEList.releases [c10Bad] = .ok [] :=
  ⟨by decide, rfl⟩

/-- C10, amended: the generator's unguarded `IDECode[ide.code]` lookup never
fails when every product's code is known — in particular on the list `main`
builds by filtering with `IDECode.get`, so downstream consumers such as
`_update_json` always receive the pairs.  Without that precondition the
lookup is still only evaluated per release: an unknown-code product with an
empty release list is traversed without any lookup, and the iterator raises
the `KeyError` of the first unknown-code product that has at least one
release. -/
theorem C10_releases_lookup_safety :
    (∀ ides : List Product, (∀ p ∈ ides, (IDECode.get p.code).isSome = true) →
      ∃ l, IDEList.releases ides = .ok l) ∧
    (∀ products : List Product,
      ∃ l, IDEList.releases (mainIDEList products) = .ok l) ∧
    (∀ products : List Product, ∃ g, update_json (mainIDEList products) = .ok g) ∧
    (∀ (pre : List Product) (bad : Product) (post : List Product),
      bad.releases = [] →
        IDEList.releases (pre ++ bad :: post) = IDEList.releases (pre ++ post)) ∧
    (∀ (pre : List Product) (bad : Product) (post : List Product),
      (∀ p ∈ pre, (IDECode.get p.code).isSome = true) → IDECode.get bad.code = none →
        bad.releases ≠ [] →
        IDEList.releases (pre ++ bad :: post) = .error (keyErrorMessage bad.code)) := by
  have hmain : ∀ products : List Product,
      IDEList.releases (mainIDEList products) = .ok (pairsOf (mainIDEList products)) := by
    intro products
    refine releases_ok_of_known ?_
    intro p hp
    exact (List.mem_filter.mp hp).2
  refine ⟨fun ides h => ⟨pairsOf ides, releases_ok_of_known h⟩,
    fun products => ⟨pairsOf (mainIDEList products), hmain products⟩,
    fun products => ⟨groupReleases (pairsOf (mainIDEList products)), ?_⟩,
    fun pre bad post hrel => releases_skips_empty_releases pre post hrel,
    fun pre bad post h hb hrel => releases_error_at_first post h hb hrel⟩
  rw [update_json, hmain products]
  rfl

/-- C10, witness: a known-code product traverses fine; an unknown-code product
with no releases is skipped without a lookup; an unknown-code product with a
release raises the `KeyError` naming it. -/
theorem C10_releases_lookup_safety_witness :
    (∃ l, IDEList.releases [c10Good] = .ok l) ∧
    IDEList.releases ([] ++ c10Bad :: [c10Good]) = IDEList.releases ([] ++ [c10Good]) ∧
    IDEList.releases ([] ++ c10BadNonempty :: []) = .error (keyErrorMessage "NOPE") :=
  ⟨C10_releases_lookup_safety.1 [c10Good] (by decide),
   C10_releases_lookup_safety.2.2.2.1 [] c10Bad [c10Good] (by decide),
   C10_releases_lookup_safety.2.2.2.2 [] c10BadNonempty [] (by decide) (by decide)
     (by decide)⟩
